import Mathlib

/-!
Shallow embedding of the Fiat-Shamir transcript engine (leanEthereum/fiat-shamir):
the modified duplex sponge challenger (src/duplex_challenger.rs), the prover
transcript state (src/prover.rs), the verifier transcript state (src/verifier.rs)
and the proof object (src/lib.rs).

The base field is KoalaBear, the concrete instantiation named in src/lib.rs:
a prime field of order 2^31 - 2^24 + 1 = 2130706433, so `F::bits() = 31`.
Field elements are modelled as `Fin P`; `as_canonical_u64` is `Fin.val`.

The Poseidon2 permutation is external to the repository (an opaque pure
function `F^16 -> F^16`); every definition below is parameterised by it as
`perm : List F -> List F`.

Rust `panic!`/`assert!` aborts are modelled explicitly: prover operations that
can assert return `Option` (`none` = panic), and verifier operations return
`VRes`, whose `panicked` constructor is distinct from returning an error.
-/

namespace FS

/-- Order of the KoalaBear prime field (2^31 - 2^24 + 1), the base field
instantiated in src/lib.rs. -/
abbrev P : Nat := 2130706433

instance : NeZero P := ⟨by decide⟩

/-- Base field elements, canonically represented. -/
abbrev F := Fin P

/-- `F::bits()` for KoalaBear: the bit length of the order, `⌈log2 P⌉ = 31`. -/
abbrev Fbits : Nat := 31

/-- Sponge width `W` (src/duplex_challenger.rs). -/
abbrev WIDTH : Nat := 16

/-- Sponge rate (src/duplex_challenger.rs). -/
abbrev RATE : Nat := 8

/-- `LEAN_ISA_VECTOR_LEN` (src/lib.rs). -/
abbrev LEAN_ISA_VECTOR_LEN : Nat := 8

/-- The modified duplex challenger of src/duplex_challenger.rs: a sponge state
of `WIDTH` field elements plus an optional buffered rate block.  The
permutation it owns is passed explicitly to each operation. -/
structure Chal where
  spongeState : List F
  outputBuffer : Option (List F)
deriving DecidableEq, Repr

/-- `DuplexChallenger::new`: all-zero sponge, empty buffer. -/
def Chal.new : Chal :=
  { spongeState := List.replicate WIDTH 0, outputBuffer := none }

/-- `DuplexChallenger::duplexing`: optionally overwrite the first `RATE`
elements of the sponge with the input block, apply the permutation once, and
set the output buffer to the new rate prefix. -/
def Chal.duplexing (perm : List F → List F) (c : Chal) (input : Option (List F)) : Chal :=
  let s1 := match input with
    | some ib => ib ++ c.spongeState.drop ib.length
    | none => c.spongeState
  let s2 := perm s1
  { spongeState := s2, outputBuffer := some (s2.take RATE) }

/-- `DuplexChallenger::observe`: duplexing with an input block. -/
def Chal.observe (perm : List F → List F) (c : Chal) (value : List F) : Chal :=
  c.duplexing perm (some value)

/-- `DuplexChallenger::sample`: refill the output buffer by duplexing with no
input if it is empty, then take (return and clear) the whole buffer. -/
def Chal.sample (perm : List F → List F) (c : Chal) : List F × Chal :=
  let c1 := if c.outputBuffer.isNone then c.duplexing perm none else c
  (c1.outputBuffer.getD [], { c1 with outputBuffer := none })

/-- `DuplexChallenger::sample_bits`: assert `bits < F::bits()` (else panic,
modelled as `none`), then mask the canonical value of the first sampled
element to its low `bits` bits. -/
def Chal.sampleBits (perm : List F → List F) (bits : Nat) (c : Chal) : Option (Nat × Chal) :=
  if bits < Fbits then
    let bc := c.sample perm
    some ((bc.1.getD 0 0).val &&& ((1 <<< bits) - 1), bc.2)
  else
    none

/-- Zero-pad a block up to `RATE` elements. -/
def padToRate (xs : List F) : List F := xs ++ List.replicate (RATE - xs.length) 0

/-- Structural worker for `rateChunks`; the fuel is an upper bound on the
input length, so the zero-fuel case on a non-empty list is never reached. -/
def rateChunksGo : Nat → List F → List (List F)
  | _, [] => []
  | 0, _ :: _ => []
  | fuel + 1, x :: rest =>
    padToRate ((x :: rest).take RATE) :: rateChunksGo fuel ((x :: rest).drop RATE)

/-- Split a scalar sequence into `RATE`-sized chunks, the last chunk
zero-padded to `RATE`. -/
def rateChunks (xs : List F) : List (List F) := rateChunksGo xs.length xs

/-- Modelled from the spec: the `observe_slice` trait glue wiring the modified
duplex challenger into `FieldChallenger` is not under src/ (src/lib.rs only
imports the p3 traits); per the spec, each `RATE`-sized chunk of the slice,
the last zero-padded to `RATE`, is observed in order. -/
def Chal.observeSlice (perm : List F → List F) (c : Chal) (xs : List F) : Chal :=
  (rateChunks xs).foldl (Chal.observe perm) c

/-- Modelled from the spec: the p3 `GrindingChallenger::check_witness` glue
for the modified challenger is not under src/; per the spec it observes
`pad_to_rate([witness])` and then requires `sample_bits(bits) == 0`.
`none` models the `sample_bits` assertion panic. -/
def Chal.checkWitness (perm : List F → List F) (bits : Nat) (witness : F) (c : Chal) :
    Option (Bool × Chal) :=
  let c1 := c.observe perm (padToRate [witness])
  match c1.sampleBits perm bits with
  | some (x, c2) => some (x == 0, c2)
  | none => none

/-- Modelled from the spec: `sample_algebra_element` (p3 glue, not under src/);
per the spec a sample produces one fresh rate block and exactly the first `D`
elements are used, the rest discarded.  Extension field elements are modelled
by their `D` basis coefficients. -/
def Chal.sampleEF (perm : List F → List F) (D : Nat) (c : Chal) : List F × Chal :=
  let bc := c.sample perm
  (bc.1.take D, bc.2)

/-- The two verifier-side error kinds.  Modelled from the spec: src/errors.rs
is declared in src/lib.rs but is not under src/; the spec (section 7) names
exactly these two variants. -/
inductive ProofError where
  | ExceededTranscript
  | InvalidGrindingWitness
deriving DecidableEq, Repr

/-- The proof object of src/lib.rs, lines 53-58: proof data, logical proof
size, and the Merkle-hint FIFO.  Note: no `padded` flag is declared, although
src/verifier.rs line 52 reads `proof.padding`. -/
structure Proof where
  proofData : List F
  proofSize : Nat
  merkleHints : List (List (List F))
deriving DecidableEq, Repr

/-- `ProverState` (src/prover.rs): challenger, accumulated proof data, the
padding flag, and the count of padding zeros. -/
structure PState where
  challenger : Chal
  proofData : List F
  padding : Bool
  nZeros : Nat
deriving DecidableEq, Repr

/-- `ProverState::new`. -/
def PState.new (challenger : Chal) (padding : Bool) : PState :=
  { challenger, proofData := [], padding, nZeros := 0 }

/-- `ProverState::proof_size`: transcript length minus padding zeros. -/
def PState.proofSize (p : PState) : Nat := p.proofData.length - p.nZeros

/-- `ProverState::add_base_scalars`: extend the proof data with the scalars
and observe them in the challenger. -/
def PState.addBaseScalars (perm : List F → List F) (p : PState) (scalars : List F) : PState :=
  { p with
    proofData := p.proofData ++ scalars,
    challenger := p.challenger.observeSlice perm scalars }

/-- Rust `Vec::resize(n, 0)`: truncate or extend with zeros to length `n`. -/
def resizeZero (l : List F) (n : Nat) : List F :=
  l.take n ++ List.replicate (n - l.length) 0

/-- `ProverState::add_extension_scalars`: flatten each extension scalar to its
basis coefficients, in padded mode resize to `LEAN_ISA_VECTOR_LEN` while
counting the zeros added, and delegate to `add_base_scalars`. -/
def PState.addExtensionScalars (perm : List F → List F) (p : PState) (scalars : List (List F)) :
    PState :=
  scalars.foldl
    (fun q ef =>
      if q.padding then
        PState.addBaseScalars perm
          { q with nZeros := q.nZeros + (LEAN_ISA_VECTOR_LEN - ef.length) }
          (resizeZero ef LEAN_ISA_VECTOR_LEN)
      else
        PState.addBaseScalars perm q ef)
    p

/-- Modelled from the spec: `flatten_scalars_to_base` lives in src/utils.rs,
declared in src/lib.rs but not under src/; per the spec it is basis-flattening
(concatenation of the `D` basis coefficients of each extension scalar). -/
def flattenScalarsToBase (xs : List (List F)) : List F := xs.flatten

/-- `ProverState::hint_base_scalars`: assert the length is a multiple of
`LEAN_ISA_VECTOR_LEN` (unconditionally — the assertion does not look at the
padding flag), then extend the proof data without observing.  `none` models
the assertion panic. -/
def PState.hintBaseScalars (p : PState) (scalars : List F) : Option PState :=
  if scalars.length % LEAN_ISA_VECTOR_LEN = 0 then
    some { p with proofData := p.proofData ++ scalars }
  else
    none

/-- `ProverState::hint_extension_scalars`: assert the number of extension
scalars is a multiple of `LEAN_ISA_VECTOR_LEN` (again unconditionally), then
extend the proof data with the flattened scalars without observing. -/
def PState.hintExtensionScalars (p : PState) (scalars : List (List F)) : Option PState :=
  if scalars.length % LEAN_ISA_VECTOR_LEN = 0 then
    some { p with proofData := p.proofData ++ flattenScalarsToBase scalars }
  else
    none

/-- `VerifierState` (src/verifier.rs): challenger, padding flag, read-only
proof data, Merkle-hint FIFO, and the read cursor. -/
structure VState where
  challenger : Chal
  padding : Bool
  proofData : List F
  merkleHints : List (List (List F))
  index : Nat
deriving DecidableEq, Repr

/-- `VerifierState::new` (src/verifier.rs lines 47-56).  The source reads the
flag as `proof.padding`, but the `Proof` struct of src/lib.rs declares no such
field (see the C3 development below), so the flag is taken here as an explicit
argument. -/
def VState.new (proof : Proof) (challenger : Chal) (padding : Bool) : VState :=
  { challenger,
    proofData := proof.proofData,
    index := 0,
    padding,
    merkleHints := proof.merkleHints }

/-- Outcome of a verifier operation: success or error (each carrying the
resulting state, since `&mut self` methods may mutate before erroring), or a
Rust panic. -/
inductive VRes (α : Type) where
  | ok : α → VState → VRes α
  | err : ProofError → VState → VRes α
  | panicked : VRes α
deriving DecidableEq, Repr

/-- `VerifierState::next_base_scalars_vec`: bounds-check (the subtraction
matches the source's `proof_data.len() - index`, which under the verifier
invariant `index ≤ len` never underflows), copy the next `n` scalars, advance
the cursor, and observe the copy. -/
def VState.nextBaseScalarsVec (perm : List F → List F) (n : Nat) (v : VState) : VRes (List F) :=
  if n > v.proofData.length - v.index then
    .err .ExceededTranscript v
  else
    let scalars := (v.proofData.drop v.index).take n
    .ok scalars
      { v with
        index := v.index + n,
        challenger := v.challenger.observeSlice perm scalars }

/-- The padded-mode pad-region assertion of
`VerifierState::next_extension_scalars_vec`: positions `D..` of a wire block
are all `ZERO`. -/
def padClean (D : Nat) (b : List F) : Bool := (b.drop D).all (fun x => x = 0)

/-- Loop body of `VerifierState::next_extension_scalars_vec`: per element, in
padded mode read `LEAN_ISA_VECTOR_LEN` base scalars (the `try_into().unwrap()`
length conversion and the `[D..]`/`[..D]` slicings panic when violated),
assert the positions `D..LEAN_ISA_VECTOR_LEN` are zero (an `assert!`, hence a
panic on failure), and keep the first `D`; in compact mode read exactly `D`
base scalars (`from_basis_coefficients_slice(..).unwrap()` panics on a length
mismatch). -/
def VState.nextExtLoop (perm : List F → List F) (D : Nat) :
    Nat → VState → List (List F) → VRes (List (List F))
  | 0, v, acc => .ok acc v
  | n + 1, v, acc =>
    if v.padding then
      match v.nextBaseScalarsVec perm LEAN_ISA_VECTOR_LEN with
      | .err e w => .err e w
      | .panicked => .panicked
      | .ok base w =>
        if base.length = LEAN_ISA_VECTOR_LEN then
          if D ≤ LEAN_ISA_VECTOR_LEN then
            if padClean D base then
              VState.nextExtLoop perm D n w (acc ++ [base.take D])
            else
              .panicked
          else
            .panicked
        else
          .panicked
    else
      match v.nextBaseScalarsVec perm D with
      | .err e w => .err e w
      | .panicked => .panicked
      | .ok base w =>
        if base.length = D then
          VState.nextExtLoop perm D n w (acc ++ [base])
        else
          .panicked

/-- `VerifierState::next_extension_scalars_vec` over `n` elements. -/
def VState.nextExtensionScalarsVec (perm : List F → List F) (D n : Nat) (v : VState) :
    VRes (List (List F)) :=
  VState.nextExtLoop perm D n v []

/-- `VerifierState::receive_hint_base_scalars`: bounds-check, copy, advance
the cursor; the challenger is not touched. -/
def VState.receiveHintBaseScalars (n : Nat) (v : VState) : VRes (List F) :=
  if n > v.proofData.length - v.index then
    .err .ExceededTranscript v
  else
    .ok ((v.proofData.drop v.index).take n) { v with index := v.index + n }

/-- `VerifierState::check_pow_grinding`: succeed on zero bits; error when the
witness (one scalar, or a `LEAN_ISA_VECTOR_LEN` word in padded mode) does not
fit in the remaining data; otherwise read the witness, advance the cursor, and
check it through the challenger. -/
def VState.checkPowGrinding (perm : List F → List F) (bits : Nat) (v : VState) : VRes Unit :=
  if bits = 0 then
    .ok () v
  else if v.index + (if v.padding then LEAN_ISA_VECTOR_LEN else 1) > v.proofData.length then
    .err .ExceededTranscript v
  else
    let witness := v.proofData.getD v.index 0
    let v1 := { v with index := v.index + (if v.padding then LEAN_ISA_VECTOR_LEN else 1) }
    match v1.challenger.checkWitness perm bits witness with
    | none => .panicked
    | some (good, c2) =>
      if good then .ok () { v1 with challenger := c2 }
      else .err .InvalidGrindingWitness { v1 with challenger := c2 }

/-- `VerifierState::receive_hint_merkle_path`: pop the FIFO head or error. -/
def VState.receiveHintMerklePath (v : VState) : VRes (List (List F)) :=
  match v.merkleHints with
  | [] => .err .ExceededTranscript v
  | h :: t => .ok h { v with merkleHints := t }

/-! ### Basic lemmas about chunking -/

lemma rateChunksGo_fuel_irrel :
    ∀ (f g : Nat) (xs : List F), xs.length ≤ f → xs.length ≤ g →
      rateChunksGo f xs = rateChunksGo g xs := by
  have hR : RATE = 8 := rfl
  intro f
  induction f with
  | zero =>
    intro g xs hf _
    have hxs : xs = [] := List.eq_nil_of_length_eq_zero (Nat.le_zero.mp hf)
    subst hxs
    cases g <;> rfl
  | succ f ih =>
    intro g xs hf hg
    cases xs with
    | nil => cases g <;> rfl
    | cons x rest =>
      cases g with
      | zero => simp at hg
      | succ g =>
        simp only [rateChunksGo]
        congr 1
        apply ih
        · simp only [List.length_drop, List.length_cons] at hf ⊢
          omega
        · simp only [List.length_drop, List.length_cons] at hg ⊢
          omega

lemma rateChunks_nil : rateChunks ([] : List F) = [] := rfl

lemma rateChunks_cons (x : F) (rest : List F) :
    rateChunks (x :: rest) =
      padToRate ((x :: rest).take RATE) :: rateChunks ((x :: rest).drop RATE) := by
  have hR : RATE = 8 := rfl
  show rateChunksGo (x :: rest).length (x :: rest) = _
  simp only [List.length_cons, rateChunksGo, rateChunks]
  congr 1
  apply rateChunksGo_fuel_irrel
  · simp only [List.length_drop, List.length_cons]
    omega
  · exact Nat.le_refl _

lemma padToRate_length_of_le {xs : List F} (h : xs.length ≤ RATE) :
    (padToRate xs).length = RATE := by
  simp only [padToRate, List.length_append, List.length_replicate]
  omega

lemma rateChunks_length_all (xs : List F) :
    ∀ c ∈ rateChunks xs, c.length = RATE := by
  have hR : RATE = 8 := rfl
  have key : ∀ (n : Nat) (ys : List F), ys.length ≤ n →
      ∀ c ∈ rateChunks ys, c.length = RATE := by
    intro n
    induction n with
    | zero =>
      intro ys hy
      have hys : ys = [] := List.eq_nil_of_length_eq_zero (Nat.le_zero.mp hy)
      subst hys
      simp [rateChunks_nil]
    | succ n ih =>
      intro ys hy c hc
      cases ys with
      | nil => simp [rateChunks_nil] at hc
      | cons y rest =>
        rw [rateChunks_cons, List.mem_cons] at hc
        rcases hc with hc | hc
        · subst hc
          apply padToRate_length_of_le
          simp only [List.length_take]
          omega
        · refine ih _ ?_ c hc
          simp only [List.length_drop, List.length_cons] at hy ⊢
          omega
  exact key xs.length xs (Nat.le_refl _)

lemma rateChunks_flatten (xs : List F) :
    (rateChunks xs).flatten =
      xs ++ List.replicate ((RATE - xs.length % RATE) % RATE) 0 := by
  have hR : RATE = 8 := rfl
  have key : ∀ (n : Nat) (ys : List F), ys.length ≤ n →
      (rateChunks ys).flatten = ys ++ List.replicate ((RATE - ys.length % RATE) % RATE) 0 := by
    intro n
    induction n with
    | zero =>
      intro ys hy
      have hys : ys = [] := List.eq_nil_of_length_eq_zero (Nat.le_zero.mp hy)
      subst hys
      simp [rateChunks_nil]
    | succ n ih =>
      intro ys hy
      cases ys with
      | nil => simp [rateChunks_nil]
      | cons y rest =>
        have hdlen : ((y :: rest).drop RATE).length ≤ n := by
          simp only [List.length_drop, List.length_cons] at hy ⊢
          omega
        rw [rateChunks_cons, List.flatten_cons, ih _ hdlen]
        by_cases hlen : rest.length + 1 ≤ RATE
        · have hdrop : (y :: rest).drop RATE = [] :=
            List.drop_eq_nil_of_le (by simp only [List.length_cons]; omega)
          have htake : (y :: rest).take RATE = y :: rest :=
            List.take_of_length_le (by simp only [List.length_cons]; omega)
          rw [hdrop, htake]
          simp only [padToRate, List.length_cons, List.nil_append, List.append_assoc,
            List.append_cancel_left_eq]
          rw [← List.replicate_add]
          congr 1
          simp only [hR, List.length_nil]
          omega
        · have htklen : ((y :: rest).take RATE).length = RATE := by
            simp only [List.length_take, List.length_cons]
            omega
          have htake2 : padToRate ((y :: rest).take RATE) = (y :: rest).take RATE := by
            simp only [padToRate, htklen, Nat.sub_self, List.replicate_zero, List.append_nil]
          rw [htake2]
          conv_rhs => rw [← List.take_append_drop RATE (y :: rest)]
          simp only [List.append_assoc, List.append_cancel_left_eq]
          congr 2
          simp only [hR, List.take_append_drop, List.length_drop, List.length_cons]
          omega
  exact key xs.length xs (Nat.le_refl _)

/-! ### C6: squeeze/sample semantics of the duplex challenger -/

/-- C6: `sample` with a full output buffer returns the buffered `RATE`
elements, clears the buffer, and applies no permutation (the sponge state of
the result is literally the old one); with an empty buffer it applies the
permutation exactly once and returns the new rate prefix, leaving the buffer
empty.  Consequently, after a single `observe` the first `sample` returns the
buffered rate prefix without permuting, and a second `sample` without an
intervening `observe` applies exactly one additional permutation. -/
theorem c6_sample_buffer_semantics (perm : List F → List F) (c : Chal) (xs : List F) :
    (Chal.sample perm c =
      match c.outputBuffer with
      | some buf => (buf, { c with outputBuffer := none })
      | none => ((perm c.spongeState).take RATE,
          { spongeState := perm c.spongeState, outputBuffer := none }))
    ∧ ((c.observe perm xs).sample perm).2.spongeState = (c.observe perm xs).spongeState
    ∧ ((c.observe perm xs).sample perm).1 = (c.observe perm xs).spongeState.take RATE
    ∧ ((((c.observe perm xs).sample perm).2).sample perm).2.spongeState =
        perm (((c.observe perm xs).sample perm).2.spongeState) := by
  refine ⟨?_, ?_, ?_, ?_⟩
  · cases hb : c.outputBuffer <;>
      simp [Chal.sample, Chal.duplexing, hb]
  · simp [Chal.sample, Chal.observe, Chal.duplexing]
  · simp [Chal.sample, Chal.observe, Chal.duplexing]
  · simp [Chal.sample, Chal.observe, Chal.duplexing]

/-! ### C7: sample_bits semantics -/

/-- C7: for `bits < F::bits()` (= 31 for KoalaBear), `sample_bits` returns the
canonical value of the first element of a fresh sample, reduced to its low
`bits` bits (the mask `(1 <<< bits) - 1` agrees with reduction mod `2 ^ bits`),
advancing the challenger exactly as `sample` does; for `bits ≥ F::bits()` the
call panics (`none`). -/
theorem c7_sample_bits (perm : List F → List F) (bits : Nat) (c : Chal) :
    Chal.sampleBits perm bits c =
      if bits < Fbits then
        some ((((c.sample perm).1.getD 0 0).val % 2 ^ bits, (c.sample perm).2))
      else
        none := by
  by_cases hb : bits < Fbits
  · simp only [Chal.sampleBits, hb, if_true]
    congr 2
    rw [Nat.shiftLeft_eq, Nat.one_mul]
    exact Nat.and_pow_two_sub_one_eq_mod _ _
  · simp [Chal.sampleBits, hb]

/-! ### Concrete states used by counterexamples and witnesses -/

/-- The identity permutation, used to close concrete statements (the
permutation is an opaque external function, so any concrete choice is a valid
instantiation). -/
def permId : List F → List F := fun l => l

/-- A fresh padded-mode prover state over the all-zero challenger. -/
def pPadEx : PState := PState.new Chal.new true

/-- A fresh compact-mode prover state over the all-zero challenger. -/
def pCompactEx : PState := PState.new Chal.new false

/-! ### C2: add_base_scalars -/

/-- C2 counterexample: in padded mode, `add_base_scalars([1])` leaves the
transcript at length 1 (not a multiple of `RATE`) and does not change
`n_zeros`, contradicting the claim that padding is appended to the transcript
and `n_zeros` incremented. -/
theorem c2_counterexample :
    (PState.addBaseScalars permId pPadEx [1]).proofData.length % RATE = 1 ∧
      (PState.addBaseScalars permId pPadEx [1]).nZeros = 0 := by
  constructor
  · rfl
  · rfl

/-- C2 amended: `add_base_scalars(xs)` appends `xs` to the transcript
unchanged — performing no transcript padding and no `n_zeros` bookkeeping in
either encoding mode — and observes `xs` into the challenger in `RATE`-sized
chunks, the last chunk zero-padded to `RATE`: every chunk has length `RATE`
and the chunks flatten to `xs` followed by `(RATE - |xs| mod RATE) mod RATE`
zeros. -/
theorem c2_add_base_scalars_amended (perm : List F → List F) (p : PState) (xs : List F) :
    PState.addBaseScalars perm p xs =
      { challenger := (rateChunks xs).foldl (Chal.observe perm) p.challenger,
        proofData := p.proofData ++ xs,
        padding := p.padding,
        nZeros := p.nZeros }
    ∧ ((rateChunks xs).all fun ch => ch.length == RATE) = true
    ∧ (rateChunks xs).flatten = xs ++ List.replicate ((RATE - xs.length % RATE) % RATE) 0 := by
  refine ⟨rfl, ?_, rateChunks_flatten xs⟩
  rw [List.all_eq_true]
  intro ch hch
  exact beq_iff_eq.mpr (rateChunks_length_all xs ch hch)

/-! ### C3: the proof object and the padding flag -/

/-- C3: the `Proof` struct of src/lib.rs is fully determined by its three
declared fields `proof_data`, `proof_size` and `merkle_hints`: it carries no
`padded` boolean, even though src/verifier.rs line 52 initializes the verifier
with `proof.padding`.  The two source files contradict each other (the field
access cannot compile against this struct), so the verifier cannot in fact
obtain its encoding mode from the proof object as defined. -/
theorem c3_proof_object_has_no_padding_field (p q : Proof)
    (h1 : p.proofData = q.proofData) (h2 : p.proofSize = q.proofSize)
    (h3 : p.merkleHints = q.merkleHints) : p = q := by
  cases p
  cases q
  simp_all

/-- Witness for C3 at concrete proof objects. -/
theorem c3_witness : (Proof.mk [1] 1 [] : Proof) = Proof.mk [1] 1 [] :=
  c3_proof_object_has_no_padding_field (Proof.mk [1] 1 []) (Proof.mk [1] 1 []) rfl rfl rfl

/-! ### C9: the hint length assertions are unconditional -/

/-- C9 counterexample: in compact mode (`padding = false`) the prover panics
on a hint of length 1 (not a multiple of `LEAN_ISA_VECTOR_LEN`), both for base
and extension scalars, contradicting the claim that compact-mode hints succeed
for every input length. -/
theorem c9_counterexample :
    pCompactEx.padding = false ∧
      PState.hintBaseScalars pCompactEx [1] = none ∧
      PState.hintExtensionScalars pCompactEx [[1]] = none :=
  ⟨rfl, rfl, rfl⟩

/-- C9 amended: `hint_base_scalars` (resp. `hint_extension_scalars`) panics
exactly when the number of scalars is not a multiple of
`LEAN_ISA_VECTOR_LEN`, in both encoding modes — the assertions in
src/prover.rs do not consult the padding flag. -/
theorem c9_hint_assert_unconditional (p : PState) (xs : List F) (es : List (List F)) :
    (PState.hintBaseScalars p xs = none ↔ xs.length % LEAN_ISA_VECTOR_LEN ≠ 0)
    ∧ (PState.hintExtensionScalars p es = none ↔ es.length % LEAN_ISA_VECTOR_LEN ≠ 0) := by
  constructor
  · by_cases h : xs.length % LEAN_ISA_VECTOR_LEN = 0 <;> simp [PState.hintBaseScalars, h]
  · by_cases h : es.length % LEAN_ISA_VECTOR_LEN = 0 <;> simp [PState.hintExtensionScalars, h]

/-! ### C8: hint transparency -/

/-- C8: hints never touch the challenger.  `hint_base_scalars` appends to the
transcript leaving every other prover field (in particular the challenger)
unchanged; `receive_hint_base_scalars` copies scalars and advances the cursor
leaving the verifier challenger unchanged; consequently any `sample` or
`sample_bits` issued after a hint agrees with one issued before it. -/
theorem c8_hint_transparency (perm : List F → List F) (p : PState) (xs : List F)
    (n : Nat) (v : VState) :
    (PState.hintBaseScalars p xs =
      if xs.length % LEAN_ISA_VECTOR_LEN = 0 then
        some { p with proofData := p.proofData ++ xs }
      else
        none)
    ∧ (VState.receiveHintBaseScalars n v =
        if v.proofData.length - v.index < n then
          .err .ExceededTranscript v
        else
          .ok ((v.proofData.drop v.index).take n) { v with index := v.index + n })
    ∧ (∀ p', PState.hintBaseScalars p xs = some p' →
        p'.challenger = p.challenger
        ∧ (∀ d, p'.challenger.sampleEF perm d = p.challenger.sampleEF perm d)
        ∧ (∀ b, p'.challenger.sampleBits perm b = p.challenger.sampleBits perm b))
    ∧ (∀ out w, VState.receiveHintBaseScalars n v = .ok out w →
        w.challenger = v.challenger
        ∧ (∀ d, w.challenger.sampleEF perm d = v.challenger.sampleEF perm d)
        ∧ (∀ b, w.challenger.sampleBits perm b = v.challenger.sampleBits perm b)) := by
  refine ⟨rfl, rfl, ?_, ?_⟩
  · intro p' h
    simp only [PState.hintBaseScalars] at h
    split at h
    · cases h
      exact ⟨rfl, fun d => rfl, fun b => rfl⟩
    · cases h
  · intro out w h
    simp only [VState.receiveHintBaseScalars] at h
    split at h
    · cases h
    · cases h
      exact ⟨rfl, fun d => rfl, fun b => rfl⟩

/-- A small verifier state used to witness C8 and C10. -/
def vSmallEx : VState :=
  { challenger := Chal.new, padding := false, proofData := [1, 2], merkleHints := [], index := 0 }

/-- Witness for C8: a concrete hint on each side leaves the concrete
challenger unchanged. -/
theorem c8_witness :
    ({ pCompactEx with proofData := pCompactEx.proofData ++ List.replicate 8 1 } : PState).challenger
        = pCompactEx.challenger
    ∧ ({ vSmallEx with index := vSmallEx.index + 1 } : VState).challenger = vSmallEx.challenger :=
  ⟨((c8_hint_transparency permId pCompactEx (List.replicate 8 1) 1 vSmallEx).2.2.1
      { pCompactEx with proofData := pCompactEx.proofData ++ List.replicate 8 1 } (by rfl)).1,
   ((c8_hint_transparency permId pCompactEx (List.replicate 8 1) 1 vSmallEx).2.2.2
      [1] { vSmallEx with index := vSmallEx.index + 1 } (by rfl)).1⟩

/-! ### C10: atomicity of ExceededTranscript and the cursor invariant -/

/-- The state carried by a non-panicking verifier outcome. -/
def resState {α : Type} : VRes α → Option VState
  | .ok _ s => some s
  | .err _ s => some s
  | .panicked => none

/-- C10: whenever `next_base_scalars_vec`, `receive_hint_base_scalars`, or the
insufficient-data branch of `check_pow_grinding` returns an error, that error
is `ExceededTranscript` and the verifier state is completely unchanged (cursor
and challenger included); and each of the three operations preserves the
invariant `index ≤ proof_data.len()` while never touching `proof_data`, so
the remaining-length subtraction `proof_data.len() - index` never underflows. -/
theorem c10_exceeded_atomicity (perm : List F → List F) (v : VState) (n bits : Nat) :
    (∀ e w, VState.nextBaseScalarsVec perm n v = .err e w → e = .ExceededTranscript ∧ w = v)
    ∧ (∀ e w, VState.receiveHintBaseScalars n v = .err e w → e = .ExceededTranscript ∧ w = v)
    ∧ (bits ≠ 0 →
        v.proofData.length < v.index + (if v.padding then LEAN_ISA_VECTOR_LEN else 1) →
        VState.checkPowGrinding perm bits v = .err .ExceededTranscript v)
    ∧ (v.index ≤ v.proofData.length →
        ∀ w, resState (VState.nextBaseScalarsVec perm n v) = some w →
          w.proofData = v.proofData ∧ w.index ≤ w.proofData.length)
    ∧ (v.index ≤ v.proofData.length →
        ∀ w, resState (VState.receiveHintBaseScalars n v) = some w →
          w.proofData = v.proofData ∧ w.index ≤ w.proofData.length)
    ∧ (v.index ≤ v.proofData.length →
        ∀ w, resState (VState.checkPowGrinding perm bits v) = some w →
          w.proofData = v.proofData ∧ w.index ≤ w.proofData.length) := by
  refine ⟨?_, ?_, ?_, ?_, ?_, ?_⟩
  · intro e w h
    simp only [VState.nextBaseScalarsVec] at h
    split at h
    · cases h
      exact ⟨rfl, rfl⟩
    · cases h
  · intro e w h
    simp only [VState.receiveHintBaseScalars] at h
    split at h
    · cases h
      exact ⟨rfl, rfl⟩
    · cases h
  · intro hb hlen
    simp only [VState.checkPowGrinding, if_neg hb]
    rw [if_pos]
    omega
  · intro hinv w h
    simp only [VState.nextBaseScalarsVec] at h
    split at h
    · simp only [resState] at h
      cases h
      exact ⟨rfl, hinv⟩
    · simp only [resState] at h
      cases h
      refine ⟨rfl, ?_⟩
      simp only at *
      omega
  · intro hinv w h
    simp only [VState.receiveHintBaseScalars] at h
    split at h
    · simp only [resState] at h
      cases h
      exact ⟨rfl, hinv⟩
    · simp only [resState] at h
      cases h
      refine ⟨rfl, ?_⟩
      simp only at *
      omega
  · intro hinv w h
    by_cases h0 : bits = 0
    · simp only [VState.checkPowGrinding, if_pos h0, resState, Option.some.injEq] at h
      subst h
      exact ⟨rfl, hinv⟩
    · by_cases hg :
          v.index + (if v.padding then LEAN_ISA_VECTOR_LEN else 1) > v.proofData.length
      · simp only [VState.checkPowGrinding, if_neg h0, if_pos hg, resState,
          Option.some.injEq] at h
        subst h
        exact ⟨rfl, hinv⟩
      · rcases hcw : Chal.checkWitness perm bits (v.proofData.getD v.index 0) v.challenger with
          _ | ⟨good, c2⟩
        · simp only [VState.checkPowGrinding, if_neg h0, if_neg hg, hcw, resState] at h
          exact Option.noConfusion h
        · rcases good with _ | _
          · simp only [VState.checkPowGrinding, if_neg h0, if_neg hg, hcw,
              Bool.false_eq_true, if_false, resState, Option.some.injEq] at h
            subst h
            refine ⟨rfl, ?_⟩
            simp only
            omega
          · simp only [VState.checkPowGrinding, if_neg h0, if_neg hg, hcw, if_true,
              resState, Option.some.injEq] at h
            subst h
            refine ⟨rfl, ?_⟩
            simp only
            omega

/-- The verifier state after a successful one-scalar read from `vSmallEx`. -/
def vSmallAfter : VState :=
  { vSmallEx with
    index := vSmallEx.index + 1,
    challenger :=
      Chal.observeSlice permId vSmallEx.challenger
        ((vSmallEx.proofData.drop vSmallEx.index).take 1) }

/-- Witness for C10: on a concrete two-element transcript, an over-long read
errors with the state unchanged, and a successful read preserves the cursor
invariant. -/
theorem c10_witness :
    (ProofError.ExceededTranscript = ProofError.ExceededTranscript ∧ vSmallEx = vSmallEx)
    ∧ (vSmallAfter.proofData = vSmallEx.proofData
        ∧ vSmallAfter.index ≤ vSmallAfter.proofData.length) :=
  ⟨(c10_exceeded_atomicity permId vSmallEx 3 1).1 .ExceededTranscript vSmallEx (by rfl),
   (c10_exceeded_atomicity permId vSmallEx 1 1).2.2.2.1 (by decide) vSmallAfter (by rfl)⟩

/-! ### C5: check_pow_grinding -/

/-- C5: for `bits < F::bits()`, `check_pow_grinding(bits)` returns OK
immediately when `bits = 0`; otherwise it errors with `ExceededTranscript`
exactly when `index + (LEAN_ISA_VECTOR_LEN if padded else 1)` exceeds the
transcript length; otherwise it reads the witness at `transcript[index]`,
advances the cursor by `LEAN_ISA_VECTOR_LEN` (padded) or 1 (compact),
observes the rate-padded witness in the challenger, and returns
`InvalidGrindingWitness` exactly when the subsequent `sample_bits(bits)`
(the first sampled element reduced mod `2 ^ bits`) is non-zero. -/
theorem c5_check_pow_grinding (perm : List F → List F) (v : VState) (bits : Nat)
    (hbits : bits < Fbits) :
    VState.checkPowGrinding perm bits v =
      if bits = 0 then
        .ok () v
      else if v.proofData.length < v.index + (if v.padding then LEAN_ISA_VECTOR_LEN else 1) then
        .err .ExceededTranscript v
      else
        let w := v.proofData.getD v.index 0
        let v1 := { v with index := v.index + (if v.padding then LEAN_ISA_VECTOR_LEN else 1) }
        let s := (v1.challenger.observe perm (padToRate [w])).sample perm
        if (s.1.getD 0 0).val % 2 ^ bits = 0 then
          .ok () { v1 with challenger := s.2 }
        else
          .err .InvalidGrindingWitness { v1 with challenger := s.2 } := by
  have hmask : ∀ x : Nat, x &&& (1 <<< bits - 1) = x % 2 ^ bits := fun x => by
    rw [Nat.shiftLeft_eq, Nat.one_mul]
    exact Nat.and_pow_two_sub_one_eq_mod _ _
  by_cases h0 : bits = 0
  · simp [VState.checkPowGrinding, h0]
  · by_cases hg : v.index + (if v.padding then LEAN_ISA_VECTOR_LEN else 1) > v.proofData.length
    · simp only [VState.checkPowGrinding, if_neg h0, if_pos hg]
    · simp only [VState.checkPowGrinding, if_neg h0, if_neg hg, Chal.checkWitness,
        Chal.sampleBits, if_pos hbits, hmask, beq_iff_eq]

/-- A concrete verifier state with a valid zero grinding witness under the
identity permutation. -/
def vPowEx : VState :=
  { challenger := Chal.new, padding := false, proofData := [0], merkleHints := [], index := 0 }

/-- Witness for C5 at `bits = 3` on `vPowEx`. -/
theorem c5_witness :
    VState.checkPowGrinding permId 3 vPowEx =
      if (3 : Nat) = 0 then
        .ok () vPowEx
      else if vPowEx.proofData.length <
          vPowEx.index + (if vPowEx.padding then LEAN_ISA_VECTOR_LEN else 1) then
        .err .ExceededTranscript vPowEx
      else
        let w : F := vPowEx.proofData.getD vPowEx.index 0
        let v1 : VState :=
          { vPowEx with
            index := vPowEx.index + (if vPowEx.padding then LEAN_ISA_VECTOR_LEN else 1) }
        let s : List F × Chal := (v1.challenger.observe permId (padToRate [w])).sample permId
        if (s.1.getD 0 0).val % 2 ^ 3 = 0 then
          .ok () { v1 with challenger := s.2 }
        else
          .err .InvalidGrindingWitness { v1 with challenger := s.2 } :=
  c5_check_pow_grinding permId vPowEx 3 (by decide)

/-! ### C4: next_extension_scalars_vec -/


def chunksExact (d : Nat) : Nat → List F → List (List F)
  | 0, _ => []
  | m + 1, l => l.take d :: chunksExact d m (l.drop d)

lemma nextBase_ok_of_le (perm : List F → List F) (v : VState) (n : Nat)
    (h : v.index + n ≤ v.proofData.length) :
    VState.nextBaseScalarsVec perm n v =
      .ok ((v.proofData.drop v.index).take n)
        { v with
          index := v.index + n,
          challenger :=
            Chal.observeSlice perm v.challenger ((v.proofData.drop v.index).take n) } := by
  have hng : ¬ (n > v.proofData.length - v.index) := by omega
  simp only [VState.nextBaseScalarsVec, if_neg hng]

lemma drop_take_len (v : VState) (n : Nat) (h : v.index + n ≤ v.proofData.length) :
    ((v.proofData.drop v.index).take n).length = n := by
  simp only [List.length_take, List.length_drop]
  omega

lemma nextExtLoop_compact (perm : List F → List F) (D : Nat) :
    ∀ (n : Nat) (v : VState) (acc : List (List F)),
      v.padding = false →
      v.index + D * n ≤ v.proofData.length →
      VState.nextExtLoop perm D n v acc =
        .ok (acc ++ chunksExact D n (v.proofData.drop v.index))
          { v with
            index := v.index + D * n,
            challenger :=
              (chunksExact D n (v.proofData.drop v.index)).foldl
                (Chal.observeSlice perm) v.challenger } := by
  intro n
  induction n with
  | zero =>
    intro v acc hp _
    simp [VState.nextExtLoop, chunksExact]
  | succ m ih =>
    intro v acc hp hlen
    rw [Nat.mul_succ] at hlen
    have hD : v.index + D ≤ v.proofData.length := by omega
    simp only [VState.nextExtLoop, hp, Bool.false_eq_true, if_false,
      nextBase_ok_of_le perm v D hD, drop_take_len v D hD, if_pos rfl]
    rw [ih]
    · have hidx : v.index + D + D * m = v.index + D * (m + 1) := by
        rw [Nat.mul_succ]
        omega
      simp only [chunksExact, List.foldl_cons, List.drop_drop, List.append_assoc,
        List.singleton_append, eq_self_iff_true, if_true, hidx, Nat.add_comm D v.index]
    · rfl
    · show v.index + D + D * m ≤ v.proofData.length
      omega



lemma chunksExact_succ (d m : Nat) (l : List F) :
    chunksExact d (m + 1) l = l.take d :: chunksExact d m (l.drop d) := rfl

lemma drop_drop_index (v : VState) (k : Nat) :
    (v.proofData.drop v.index).drop k = v.proofData.drop (v.index + k) := by
  rw [List.drop_drop, Nat.add_comm]

lemma nextExtLoop_padded_ok (perm : List F → List F) (D : Nat)
    (hD : D ≤ LEAN_ISA_VECTOR_LEN) :
    ∀ (n : Nat) (v : VState) (acc : List (List F)),
      v.padding = true →
      v.index + LEAN_ISA_VECTOR_LEN * n ≤ v.proofData.length →
      (∀ b ∈ chunksExact LEAN_ISA_VECTOR_LEN n (v.proofData.drop v.index),
        padClean D b = true) →
      VState.nextExtLoop perm D n v acc =
        .ok (acc ++
              (chunksExact LEAN_ISA_VECTOR_LEN n (v.proofData.drop v.index)).map (List.take D))
          { v with
            index := v.index + LEAN_ISA_VECTOR_LEN * n,
            challenger :=
              (chunksExact LEAN_ISA_VECTOR_LEN n (v.proofData.drop v.index)).foldl
                (Chal.observeSlice perm) v.challenger } := by
  intro n
  induction n with
  | zero =>
    intro v acc hp _ _
    simp [VState.nextExtLoop, chunksExact]
  | succ m ih =>
    intro v acc hp hlen hclean
    rw [Nat.mul_succ] at hlen
    have h8 : v.index + LEAN_ISA_VECTOR_LEN ≤ v.proofData.length := by omega
    have hhead : padClean D ((v.proofData.drop v.index).take LEAN_ISA_VECTOR_LEN) = true := by
      apply hclean
      rw [chunksExact_succ]
      exact List.mem_cons_self _ _
    simp only [VState.nextExtLoop, hp, if_true,
      nextBase_ok_of_le perm v LEAN_ISA_VECTOR_LEN h8,
      drop_take_len v LEAN_ISA_VECTOR_LEN h8, if_pos rfl, if_pos hD, hhead]
    rw [ih]
    · have hidx :
          v.index + LEAN_ISA_VECTOR_LEN + LEAN_ISA_VECTOR_LEN * m =
            v.index + LEAN_ISA_VECTOR_LEN * (m + 1) := by
        rw [Nat.mul_succ]
        omega
      simp only [chunksExact_succ, List.map_cons, List.foldl_cons, List.drop_drop,
        List.append_assoc, List.singleton_append, eq_self_iff_true, if_true, hidx,
        Nat.add_comm LEAN_ISA_VECTOR_LEN v.index]
    · rfl
    · show v.index + LEAN_ISA_VECTOR_LEN + LEAN_ISA_VECTOR_LEN * m ≤ v.proofData.length
      omega
    · intro b hb
      apply hclean
      rw [chunksExact_succ]
      refine List.mem_cons_of_mem _ ?_
      rw [drop_drop_index]
      exact hb

lemma nextExtLoop_padded_panic (perm : List F → List F) (D : Nat)
    (hD : D ≤ LEAN_ISA_VECTOR_LEN) :
    ∀ (clean : List (List F)) (n : Nat) (v : VState) (acc : List (List F))
      (bad rest : List F),
      v.padding = true →
      (∀ b ∈ clean, b.length = LEAN_ISA_VECTOR_LEN ∧ padClean D b = true) →
      bad.length = LEAN_ISA_VECTOR_LEN →
      padClean D bad = false →
      v.proofData.drop v.index = clean.flatten ++ (bad ++ rest) →
      clean.length < n →
      VState.nextExtLoop perm D n v acc = .panicked := by
  intro clean
  induction clean with
  | nil =>
    intro n v acc bad rest hp _ hbadlen hbad hdec hlt
    cases n with
    | zero => exact absurd hlt (Nat.not_lt_zero _)
    | succ m =>
      simp only [List.flatten_nil, List.nil_append] at hdec
      have h8 : v.index + LEAN_ISA_VECTOR_LEN ≤ v.proofData.length := by
        have hLV : LEAN_ISA_VECTOR_LEN = 8 := rfl
        have hl := congrArg List.length hdec
        simp only [List.length_drop, List.length_append, hbadlen] at hl
        omega
      have htake : (v.proofData.drop v.index).take LEAN_ISA_VECTOR_LEN = bad := by
        rw [hdec, ← hbadlen, List.take_left]
      simp only [VState.nextExtLoop, hp, if_true,
        nextBase_ok_of_le perm v LEAN_ISA_VECTOR_LEN h8,
        drop_take_len v LEAN_ISA_VECTOR_LEN h8, if_pos rfl, if_pos hD, htake, hbad,
        Bool.false_eq_true, if_false, ite_self]
  | cons b clean ih =>
    intro n v acc bad rest hp hclean hbadlen hbad hdec hlt
    cases n with
    | zero => simp at hlt
    | succ m =>
      obtain ⟨hblen, hbclean⟩ := hclean b (List.mem_cons_self _ _)
      simp only [List.flatten_cons, List.append_assoc] at hdec
      have h8 : v.index + LEAN_ISA_VECTOR_LEN ≤ v.proofData.length := by
        have hLV : LEAN_ISA_VECTOR_LEN = 8 := rfl
        have hl := congrArg List.length hdec
        simp only [List.length_drop, List.length_append, hblen] at hl
        omega
      have htake : (v.proofData.drop v.index).take LEAN_ISA_VECTOR_LEN = b := by
        rw [hdec, ← hblen, List.take_left]
      simp only [VState.nextExtLoop, hp, if_true,
        nextBase_ok_of_le perm v LEAN_ISA_VECTOR_LEN h8,
        drop_take_len v LEAN_ISA_VECTOR_LEN h8, if_pos rfl, if_pos hD, htake, hbclean,
        hblen, ite_self]
      refine ih m _ _ bad rest rfl ?_ hbadlen hbad ?_ ?_
      · intro c hc
        exact hclean c (List.mem_cons_of_mem _ hc)
      · show (v.proofData.drop (v.index + LEAN_ISA_VECTOR_LEN)) = _
        rw [← drop_drop_index, hdec, ← hblen, List.drop_left]
      · simp only [List.length_cons] at hlt
        omega



/-- A padded-mode verifier state whose first wire block has a non-zero value
(5) in pad position 4. -/
def vC4Ex : VState :=
  { challenger := Chal.new, padding := true,
    proofData := [1, 0, 0, 0, 5, 0, 0, 0], merkleHints := [], index := 0 }

/-- C4 counterexample: with `D = 4` in padded mode, reading one extension
scalar from a block whose pad region holds a non-zero value panics (the
`assert!` in src/verifier.rs line 109 aborts) — it does not return the error
`ExceededTranscript` as the claim states. -/
theorem c4_counterexample :
    VState.nextExtensionScalarsVec permId 4 1 vC4Ex = .panicked := by rfl

/-- C4 amended: `next_extension_scalars_vec(n)` in compact mode reads exactly
`D` base scalars per element and reconstructs each extension scalar from them;
in padded mode it reads `VLEN = LEAN_ISA_VECTOR_LEN = 8` base scalars per
element and, upon encountering an element whose positions `D..VLEN` contain a
non-zero scalar, panics via `assert!` (rather than returning
`ExceededTranscript`); elements whose pad region is all zero are reconstructed
from the first `D` scalars. -/
theorem c4_next_extension_scalars_amended (perm : List F → List F) (D n : Nat) (v : VState) :
    (v.padding = false → v.index + D * n ≤ v.proofData.length →
      VState.nextExtensionScalarsVec perm D n v =
        .ok (chunksExact D n (v.proofData.drop v.index))
          { v with
            index := v.index + D * n,
            challenger :=
              (chunksExact D n (v.proofData.drop v.index)).foldl
                (Chal.observeSlice perm) v.challenger })
    ∧ (v.padding = true → D ≤ LEAN_ISA_VECTOR_LEN →
        v.index + LEAN_ISA_VECTOR_LEN * n ≤ v.proofData.length →
        (∀ b ∈ chunksExact LEAN_ISA_VECTOR_LEN n (v.proofData.drop v.index),
          padClean D b = true) →
        VState.nextExtensionScalarsVec perm D n v =
          .ok ((chunksExact LEAN_ISA_VECTOR_LEN n (v.proofData.drop v.index)).map
                (List.take D))
            { v with
              index := v.index + LEAN_ISA_VECTOR_LEN * n,
              challenger :=
                (chunksExact LEAN_ISA_VECTOR_LEN n (v.proofData.drop v.index)).foldl
                  (Chal.observeSlice perm) v.challenger })
    ∧ (v.padding = true → D ≤ LEAN_ISA_VECTOR_LEN →
        ∀ (clean : List (List F)) (bad rest : List F),
          (∀ b ∈ clean, b.length = LEAN_ISA_VECTOR_LEN ∧ padClean D b = true) →
          bad.length = LEAN_ISA_VECTOR_LEN →
          padClean D bad = false →
          v.proofData.drop v.index = clean.flatten ++ (bad ++ rest) →
          clean.length < n →
          VState.nextExtensionScalarsVec perm D n v = .panicked) := by
  refine ⟨?_, ?_, ?_⟩
  · intro hp hlen
    simpa [VState.nextExtensionScalarsVec] using nextExtLoop_compact perm D n v [] hp hlen
  · intro hp hD hlen hclean
    simpa [VState.nextExtensionScalarsVec] using
      nextExtLoop_padded_ok perm D hD n v [] hp hlen hclean
  · intro hp hD clean bad rest hclean hbadlen hbad hdec hlt
    exact nextExtLoop_padded_panic perm D hD clean n v [] bad rest hp hclean hbadlen hbad
      hdec hlt

/-- A compact-mode verifier state with eight scalars available. -/
def vC4cEx : VState :=
  { challenger := Chal.new, padding := false,
    proofData := [1, 2, 3, 4, 5, 6, 7, 8], merkleHints := [], index := 0 }

/-- Witness for C4: reading two `D = 4` extension scalars in compact mode from
a concrete eight-scalar transcript. -/
theorem c4_witness :
    VState.nextExtensionScalarsVec permId 4 2 vC4cEx =
      .ok (chunksExact 4 2 (vC4cEx.proofData.drop vC4cEx.index))
        { vC4cEx with
          index := vC4cEx.index + 4 * 2,
          challenger :=
            (chunksExact 4 2 (vC4cEx.proofData.drop vC4cEx.index)).foldl
              (Chal.observeSlice permId) vC4cEx.challenger } :=
  (c4_next_extension_scalars_amended permId 4 2 vC4cEx).1 rfl (by decide)

/-! ### C1: prover/verifier round-trip determinism -/


/-- Run a prover script: a sequence of `add_base_scalars` calls in order. -/
def proverAdds (perm : List F → List F) (p : PState) (script : List (List F)) : PState :=
  script.foldl (PState.addBaseScalars perm) p

/-- Replay a script on the verifier side: a sequence of
`next_base_scalars_vec` calls with the given lengths in order, collecting the
scalars read. -/
def verifierReads (perm : List F → List F) : VState → List Nat → VRes (List (List F))
  | v, [] => .ok [] v
  | v, n :: ns =>
    match VState.nextBaseScalarsVec perm n v with
    | .ok xs v1 =>
      match verifierReads perm v1 ns with
      | .ok ys v2 => .ok (xs :: ys) v2
      | .err e w => .err e w
      | .panicked => .panicked
    | .err e w => .err e w
    | .panicked => .panicked

lemma proverAdds_cons (perm : List F → List F) (p : PState) (xs : List F)
    (s : List (List F)) :
    proverAdds perm p (xs :: s) = proverAdds perm (PState.addBaseScalars perm p xs) s := rfl

lemma proverAdds_proofData (perm : List F → List F) :
    ∀ (s : List (List F)) (p : PState),
      (proverAdds perm p s).proofData = p.proofData ++ s.flatten := by
  intro s
  induction s with
  | nil => intro p; simp [proverAdds]
  | cons xs s ih =>
    intro p
    rw [proverAdds_cons, ih]
    simp [PState.addBaseScalars, List.flatten_cons, List.append_assoc]

/-- Replay invariant: if the verifier cursor sits at the end of what a prover
state has already written and the challengers agree, then reading back any
script appended from there returns exactly that script and keeps the
challengers in lockstep. -/
lemma verifierReads_spec (perm : List F → List F) :
    ∀ (script : List (List F)) (p : PState) (rest : List F) (v : VState),
      v.proofData = p.proofData ++ script.flatten ++ rest →
      v.index = p.proofData.length →
      v.challenger = p.challenger →
      verifierReads perm v (script.map List.length) =
        .ok script
          { v with
            index := p.proofData.length + script.flatten.length,
            challenger := (proverAdds perm p script).challenger } := by
  intro script
  induction script with
  | nil =>
    intro p rest v hdata hidx hch
    simp only [List.map_nil, verifierReads, List.flatten_nil, List.length_nil,
      Nat.add_zero, proverAdds, List.foldl_nil]
    rw [← hidx, ← hch]
  | cons xs script ih =>
    intro p rest v hdata hidx hch
    have hsplit : v.proofData.drop v.index = xs ++ (script.flatten ++ rest) := by
      rw [hdata, hidx, List.flatten_cons, List.append_assoc, List.append_assoc,
        List.drop_left]
    have hle : v.index + xs.length ≤ v.proofData.length := by
      have hlen2 : v.proofData.length =
          p.proofData.length + (xs.length + (script.flatten.length + rest.length)) := by
        rw [hdata, List.flatten_cons]
        simp [List.length_append]
      omega
    have htake : (v.proofData.drop v.index).take xs.length = xs := by
      rw [hsplit, List.take_left]
    simp only [List.map_cons, verifierReads, nextBase_ok_of_le perm v xs.length hle, htake]
    rw [ih (PState.addBaseScalars perm p xs) rest _ ?_ ?_ ?_]
    · have hL : (PState.addBaseScalars perm p xs).proofData.length =
          p.proofData.length + xs.length := by
        simp [PState.addBaseScalars]
      rw [hL, ← proverAdds_cons, Nat.add_assoc]
      simp [List.flatten_cons, Nat.add_assoc]
    · show v.proofData = (p.proofData ++ xs) ++ script.flatten ++ rest
      rw [hdata, List.flatten_cons]
      simp [List.append_assoc]
    · show v.index + xs.length = (p.proofData ++ xs).length
      rw [hidx, List.length_append]
    · show Chal.observeSlice perm v.challenger xs = Chal.observeSlice perm p.challenger xs
      rw [hch]



/-- The prover state after running a script from a fresh transcript. -/
def c1Prover (perm : List F → List F) (c0 : Chal) (padded : Bool)
    (script : List (List F)) : PState :=
  proverAdds perm (PState.new c0 padded) script

/-- The verifier state built from the proof object produced by `c1Prover` and
the same initial challenger. -/
def c1Verifier (perm : List F → List F) (c0 : Chal) (padded : Bool)
    (script : List (List F)) : VState :=
  VState.new
    (Proof.mk (c1Prover perm c0 padded script).proofData
      (c1Prover perm c0 padded script).proofSize [])
    c0 padded

/-- C1: for every sequence of base-scalar slices and every encoding mode, a
verifier built from the resulting proof and the same initial challenger which
replays the same lengths in the same order (1) reads back exactly the scalars
the prover appended with no error, ending with the prover final challenger;
(2) after each prefix of `k` corresponding operations its cursor and
challenger equal the prover state after the same `k` operations; and (3) any
state reached by a successful replay of a prefix yields the same `sample`
(`sampleEF`) and `sample_bits` outcomes as the prover challenger at that
point. -/
theorem c1_round_trip_determinism (perm : List F → List F) (c0 : Chal) (padded : Bool)
    (script : List (List F)) (k : Nat) :
    (verifierReads perm (c1Verifier perm c0 padded script) (script.map List.length) =
      .ok script
        { c1Verifier perm c0 padded script with
          index := (c1Prover perm c0 padded script).proofData.length,
          challenger := (c1Prover perm c0 padded script).challenger })
    ∧ (verifierReads perm (c1Verifier perm c0 padded script)
          ((script.take k).map List.length) =
        .ok (script.take k)
          { c1Verifier perm c0 padded script with
            index := (c1Prover perm c0 padded (script.take k)).proofData.length,
            challenger := (c1Prover perm c0 padded (script.take k)).challenger })
    ∧ (∀ out vK,
        verifierReads perm (c1Verifier perm c0 padded script)
            ((script.take k).map List.length) = .ok out vK →
        out = script.take k
        ∧ vK.challenger = (c1Prover perm c0 padded (script.take k)).challenger
        ∧ (∀ d, vK.challenger.sampleEF perm d =
            (c1Prover perm c0 padded (script.take k)).challenger.sampleEF perm d)
        ∧ (∀ b, vK.challenger.sampleBits perm b =
            (c1Prover perm c0 padded (script.take k)).challenger.sampleBits perm b)) := by
  have hdata0 : ∀ (s : List (List F)),
      (proverAdds perm (PState.new c0 padded) s).proofData = s.flatten := by
    intro s
    rw [proverAdds_proofData]
    rfl
  have h1 :=
    verifierReads_spec perm script (PState.new c0 padded) []
      (c1Verifier perm c0 padded script)
      (by
        show (c1Prover perm c0 padded script).proofData = [] ++ script.flatten ++ []
        rw [c1Prover, hdata0]
        simp)
      rfl rfl
  have h2 :=
    verifierReads_spec perm (script.take k) (PState.new c0 padded)
      (script.drop k).flatten (c1Verifier perm c0 padded script)
      (by
        show (c1Prover perm c0 padded script).proofData =
          [] ++ (script.take k).flatten ++ (script.drop k).flatten
        rw [c1Prover, hdata0, List.nil_append, ← List.flatten_append,
          List.take_append_drop])
      rfl rfl
  have hidx1 :
      ((PState.new c0 padded).proofData.length + script.flatten.length) =
        (c1Prover perm c0 padded script).proofData.length := by
    rw [c1Prover, hdata0]
    simp [PState.new]
  have hidx2 :
      ((PState.new c0 padded).proofData.length + (script.take k).flatten.length) =
        (c1Prover perm c0 padded (script.take k)).proofData.length := by
    rw [c1Prover, hdata0]
    simp [PState.new]
  rw [hidx1] at h1
  rw [hidx2] at h2
  refine ⟨h1, h2, ?_⟩
  intro out vK h
  have h3 := h2.symm.trans h
  injection h3 with h4 h5
  subst h4
  subst h5
  exact ⟨rfl, rfl, fun d => rfl, fun b => rfl⟩



/-- A concrete two-message prover script. -/
def c1ScriptEx : List (List F) := [[1, 2, 3], [4]]

/-- The prover state after the first message of `c1ScriptEx`. -/
def c1PKEx : PState := c1Prover permId Chal.new false (c1ScriptEx.take 1)

/-- The verifier state after replaying the first message of `c1ScriptEx`. -/
def c1VKEx : VState :=
  { c1Verifier permId Chal.new false c1ScriptEx with
    index := c1PKEx.proofData.length, challenger := c1PKEx.challenger }

/-- Witness for C1 at a concrete script, prefix length 1, under the identity
permutation. -/
theorem c1_witness :
    c1ScriptEx.take 1 = c1ScriptEx.take 1 ∧ c1VKEx.challenger = c1PKEx.challenger :=
  ⟨((c1_round_trip_determinism permId Chal.new false c1ScriptEx 1).2.2
      (c1ScriptEx.take 1) c1VKEx
      (c1_round_trip_determinism permId Chal.new false c1ScriptEx 1).2.1).1,
   ((c1_round_trip_determinism permId Chal.new false c1ScriptEx 1).2.2
      (c1ScriptEx.take 1) c1VKEx
      (c1_round_trip_determinism permId Chal.new false c1ScriptEx 1).2.1).2.1⟩

end FS
